import Mathlib

/-!
Verification of the verilog-wavedrom core: a shallow embedding of
`verilog_parser.py` (port extraction), `vcd_to_wavedrom.py` (VCD parsing and
WaveDrom generation) and `signal_order_extractor.py` (fuzzy signal
reordering), together with theorems settling the specification claims.

Python strings are modelled as Lean `String`s and manipulated through
explicit `List Char` helpers so that every definition is executable and
reduces in the kernel.  Python `int` is modelled as `Int` (with `Int.fdiv`
for Python floor division `//`), floats appearing in the fuzzy scorer are
modelled as exact rationals `ℚ` (every comparison decided by the claims is
between exactly representable constants).
-/

/-! Basic character and string helpers (Python semantics). -/

/-- Python `str` whitespace (the characters stripped by `str.strip()`). -/
def isPySpace (c : Char) : Bool :=
  c = ' ' || c = '\t' || c = '\n' || c = '\r' || c = '\x0b' || c = '\x0c'

/-- Python regex `\w` character class (ASCII interpretation). -/
def isWordChar (c : Char) : Bool :=
  c.isAlphanum || c = '_'

/-- ASCII lower-casing of one character, as Python `str.lower()` does for ASCII. -/
def pyLowerChar (c : Char) : Char :=
  if 65 ≤ c.toNat ∧ c.toNat ≤ 90 then Char.ofNat (c.toNat + 32) else c

/-- Python `str.lower()`. -/
def pyLower (s : String) : String :=
  String.mk (s.toList.map pyLowerChar)

/-- Python `str.strip()`. -/
def pyStrip (s : String) : String :=
  String.mk (((s.toList.dropWhile isPySpace).reverse.dropWhile isPySpace).reverse)

/-- Drop the first `n` characters (Python slice `s[n:]`, by code point). -/
def strDrop (s : String) (n : Nat) : String :=
  String.mk (s.toList.drop n)

/-- Take the first `n` characters (Python slice `s[:n]`, by code point). -/
def strTake (s : String) (n : Nat) : String :=
  String.mk (s.toList.take n)

/-- Number of code points (Python `len`). -/
def strLen (s : String) : Nat :=
  s.toList.length

/-- Does `pre` occur at the head of `cs`? -/
def startsSeg : List Char → List Char → Bool
  | [], _ => true
  | _ :: _, [] => false
  | a :: as, b :: bs => a = b && startsSeg as bs

/-- Does `needle` occur contiguously inside `hay`?  (Python `needle in hay`.) -/
def inSeg (needle : List Char) : List Char → Bool
  | [] => startsSeg needle []
  | c :: cs => startsSeg needle (c :: cs) || inSeg needle cs

/-- Python `sub in s` (substring containment). -/
def strContains (s sub : String) : Bool :=
  inSeg sub.toList s.toList

/-- Python `s.startswith(pre)`. -/
def strStarts (s pre : String) : Bool :=
  startsSeg pre.toList s.toList

/-- Python `s.endswith(suf)`. -/
def strEnds (s suf : String) : Bool :=
  startsSeg suf.toList.reverse s.toList.reverse

/-- Digits of a decimal literal, or `none` if empty / non-digit. -/
def digitsToNat (cs : List Char) : Option Nat :=
  if cs ≠ [] ∧ cs.all Char.isDigit then
    some (cs.foldl (fun a c => a * 10 + (c.toNat - 48)) 0)
  else none

/-- Python `int(s)` for plain decimal literals: surrounding whitespace is
stripped and one optional sign is allowed (digit-group underscores are not
modelled).  Returns `none` where Python raises `ValueError`. -/
def pyInt (s : String) : Option Int :=
  match (pyStrip s).toList with
  | '+' :: rest => (digitsToNat rest).map Int.ofNat
  | '-' :: rest => (digitsToNat rest).map (fun n => -(n : Int))
  | rest => (digitsToNat rest).map Int.ofNat

/-- Python `int(s, 2)` for plain binary digit strings. -/
def binToNat (cs : List Char) : Option Nat :=
  if cs ≠ [] ∧ cs.all (fun c => c = '0' ∨ c = '1') then
    some (cs.foldl (fun a c => a * 2 + (if c = '1' then 1 else 0)) 0)
  else none

/-- Python `str.split()` (split on runs of whitespace, dropping empties). -/
def splitWsAux : List Char → List Char → List String → List String
  | [], cur, acc =>
    (if cur = [] then acc else String.mk cur.reverse :: acc).reverse
  | c :: cs, cur, acc =>
    if isPySpace c then
      if cur = [] then splitWsAux cs [] acc
      else splitWsAux cs [] (String.mk cur.reverse :: acc)
    else splitWsAux cs (c :: cur) acc

def splitWs (s : String) : List String :=
  splitWsAux s.toList [] []

/-- Python `s.split('\n')` (keeps empty fields). -/
def splitLinesAux : List Char → List Char → List String → List String
  | [], cur, acc => (String.mk cur.reverse :: acc).reverse
  | c :: cs, cur, acc =>
    if c = '\n' then splitLinesAux cs [] (String.mk cur.reverse :: acc)
    else splitLinesAux cs (c :: cur) acc

def splitLines (s : String) : List String :=
  splitLinesAux s.toList [] []

/-- Python `s.split(',')` (keeps empty fields). -/
def splitCommaAux : List Char → List Char → List String → List String
  | [], cur, acc => (String.mk cur.reverse :: acc).reverse
  | c :: cs, cur, acc =>
    if c = ',' then splitCommaAux cs [] (String.mk cur.reverse :: acc)
    else splitCommaAux cs (c :: cur) acc

def splitComma (s : String) : List String :=
  splitCommaAux s.toList [] []

/-- Python `sep.join(parts)`. -/
def joinWith (sep : String) : List String → String
  | [] => ""
  | [p] => p
  | p :: q :: rest => p ++ sep ++ joinWith sep (q :: rest)

/-- Replace an element in place (used to model mutation of a list cell). -/
def modIdx : List α → Nat → (α → α) → List α
  | [], _, _ => []
  | a :: as, 0, f => f a :: as
  | a :: as, n + 1, f => a :: modIdx as n f

/-! Embedding of `verilog_parser.py`: the `Port` dataclass and the
per-declaration port construction of `_parse_ansi_ports` /
`_parse_non_ansi_ports`. -/

/-- `Port` dataclass of verilog_parser.py. -/
structure Port where
  name : String
  direction : String
  width : Nat := 1
  msb : Option Int := none
  lsb : Option Int := none
  is_reg : Bool := false
  is_signed : Bool := false
deriving DecidableEq

/-- `Port.__post_init__`: when both bounds are known, the width is recomputed
as `abs(msb - lsb) + 1`.  The dataclass runs this on every construction. -/
def Port.postInit (p : Port) : Port :=
  match p.msb, p.lsb with
  | some m, some l => { p with width := (m - l).natAbs + 1 }
  | _, _ => p

/-- `Port.get_full_name`. -/
def Port.get_full_name (p : Port) : String :=
  if p.width = 1 then
    match p.msb, p.lsb with
    | some m, some l => p.name ++ "[" ++ toString m ++ ":" ++ toString l ++ "]"
    | _, _ => p.name
  else
    let m := p.msb.getD ((p.width : Int) - 1)
    let l := p.lsb.getD 0
    p.name ++ "[" ++ toString m ++ ":" ++ toString l ++ "]"

/-- `VerilogParser._parse_bit_index`: a literal integer parses directly; an
expression such as `WIDTH-1` (and any other non-literal) yields `None`. -/
def parse_bit_index : Option String → Option Int
  | none => none
  | some s => pyInt s

/-- One match of the ANSI-style port regex
`(input|output|inout)\s+(?:reg\s+|wire\s+)?(signed\s+)?(?:\[(...):(...)\]\s+)?(\w+)`:
captured direction, presence of `signed`, the two optional bound strings and
the port name. -/
structure AnsiMatch where
  direction : String
  signedTok : Bool
  msbStr : Option String
  lsbStr : Option String
  name : String
deriving DecidableEq

/-- Loop body of `VerilogParser._parse_ansi_ports` for one regex match:
bit-index resolution with the width-8 fallback for parameterized bounds,
followed by `Port(...)` construction (which runs `__post_init__`). -/
def ansiPortOfMatch (m : AnsiMatch) : Port :=
  let msb := parse_bit_index m.msbStr
  let lsb := parse_bit_index m.lsbStr
  if m.msbStr.isSome ∧ m.lsbStr.isSome then
    match msb, lsb with
    | some mi, some li =>
      Port.postInit
        { name := m.name, direction := pyLower m.direction,
          width := (mi - li).natAbs + 1, msb := some mi, lsb := some li,
          is_reg := false, is_signed := m.signedTok }
    | _, _ =>
      -- Parameterized width - default to 8 with synthetic bounds 7:0
      Port.postInit
        { name := m.name, direction := pyLower m.direction,
          width := 8, msb := some 7, lsb := some 0,
          is_reg := false, is_signed := m.signedTok }
  else
    Port.postInit
      { name := m.name, direction := pyLower m.direction,
        width := 1, msb := msb, lsb := lsb,
        is_reg := false, is_signed := m.signedTok }

/-- `VerilogParser._parse_ansi_ports` over the stream of regex matches:
reserved-word names are skipped and duplicates dropped (first seen wins). -/
def parse_ansi_ports_from (seen : List String) : List AnsiMatch → List Port
  | [] => []
  | m :: ms =>
    if pyLower m.name ∈ (["wire", "reg", "signed", "unsigned"] : List String) then
      parse_ansi_ports_from seen ms
    else if m.name ∈ seen then
      parse_ansi_ports_from seen ms
    else
      ansiPortOfMatch m :: parse_ansi_ports_from (m.name :: seen) ms

def parse_ansi_ports (ms : List AnsiMatch) : List Port :=
  parse_ansi_ports_from [] ms

/-- One match of the non-ANSI declaration regex
`(input|output|inout)\s+(reg|wire)?\s*(signed)?\s*(?:\[(...):(...)\])?\s*([\w\s,]+)\s*;`. -/
structure DeclMatch where
  direction : String
  regWire : Option String
  signedTok : Bool
  msbStr : Option String
  lsbStr : Option String
  namesStr : String
deriving DecidableEq

/-- `Port` built for one name of a non-ANSI declaration: no explicit width is
passed, so the dataclass default 1 stands unless `__post_init__` recomputes
it from two resolved bounds. -/
def nonAnsiPortOfName (direction : String) (is_reg is_signed : Bool)
    (msb lsb : Option Int) (name : String) : Port :=
  Port.postInit
    { name := name, direction := direction,
      msb := msb, lsb := lsb, is_reg := is_reg, is_signed := is_signed }

/-- `VerilogParser._parse_non_ansi_ports` over the stream of regex matches. -/
def nonAnsiPortsOfMatch (port_names : List String) (m : DeclMatch) : List Port :=
  let direction := pyLower m.direction
  let is_reg := (m.regWire.map pyLower) = some "reg"
  let is_signed := m.signedTok
  let msb := match m.msbStr with
    | some s => parse_bit_index (some s)
    | none => none
  let lsb := match m.lsbStr with
    | some s => parse_bit_index (some s)
    | none => none
  ((splitComma m.namesStr).map pyStrip).filterMap (fun name =>
    if name ≠ "" ∧ (port_names = [] ∨ name ∈ port_names) then
      some (nonAnsiPortOfName direction is_reg is_signed msb lsb name)
    else none)

def parse_non_ansi_ports (ms : List DeclMatch) (port_names : List String) :
    List Port :=
  ms.flatMap (nonAnsiPortsOfMatch port_names)

/-! Embedding of the `VCDParser` class of `vcd_to_wavedrom.py`.

The Python parser is two nested loops over the lines of the file (a header
loop, with an inner loop for the `$timescale ... $end` block, then a value
change loop).  It is embedded as a single structural fold over the lines
with an explicit mode, which performs exactly the same per-line actions.

Mutable aliasing in Python (`signals[full_name]` and `id_to_signal[sig_id]`
point at the same `VCDSignal` object) is modelled by keeping every declared
signal in a list `decls` and by letting both dictionaries store indices into
that list; value changes mutate the indexed cell.  The final `signals`
dictionary is assembled from the indices once the fold is done. -/

/-- `VCDSignal` dataclass. -/
structure VCDSignal where
  id : String
  name : String
  width : Nat
  scope : String := ""
  values : List (Int × String) := []
deriving DecidableEq

def defaultVCDSignal : VCDSignal :=
  { id := "", name := "", width := 1 }

/-- `VCDSignal.get_value_at`: value of the last change at or before `time`,
defaulting to `'x'`. -/
def getValueAtAux : List (Int × String) → Int → String → String
  | [], _, last => last
  | (t, v) :: rest, time, last =>
    if t > time then last else getValueAtAux rest time v

def VCDSignal.get_value_at (sig : VCDSignal) (time : Int) : String :=
  getValueAtAux sig.values time "x"

/-- `VCDData` dataclass; `signals` is the insertion-ordered dict
`full_name -> VCDSignal`. -/
structure VCDData where
  timescale : String := "1ns"
  signals : List (String × VCDSignal) := []
  end_time : Int := 0
deriving DecidableEq

/-- Insert into an insertion-ordered dict: an existing key keeps its
position and gets the new value, a new key is appended. -/
def insertKey : List (String × Nat) → String → Nat → List (String × Nat)
  | [], k, v => [(k, v)]
  | (k0, v0) :: rest, k, v =>
    if k0 = k then (k0, v) :: rest else (k0, v0) :: insertKey rest k v

/-- Attempt of the regex `(\d+\s*\w+)` at the head of `cs`, with the
backtracking a Python regex engine performs (the digit run shrinks when no
word character follows the optional whitespace). -/
def tsMatchAt (cs : List Char) : Option (List Char) :=
  match cs with
  | [] => none
  | c :: _ =>
    if c.isDigit then
      let ds := cs.takeWhile Char.isDigit
      let rest := cs.dropWhile Char.isDigit
      let sp := rest.takeWhile isPySpace
      let r2 := rest.dropWhile isPySpace
      match r2 with
      | c2 :: _ =>
        if isWordChar c2 then some (ds ++ sp ++ r2.takeWhile isWordChar)
        else if 2 ≤ ds.length then some ds else none
      | [] => if 2 ≤ ds.length then some ds else none
    else none

/-- Leftmost match of `re.search(r'(\d+\s*\w+)', s)`. -/
def tsSearch : List Char → Option (List Char)
  | [] => none
  | c :: cs =>
    match tsMatchAt (c :: cs) with
    | some m => some m
    | none => tsSearch cs

/-- Timescale extraction of `VCDParser._parse_timescale` from the joined
block content: regex search then `.replace(' ', '')`, defaulting to "1ns". -/
def extractTimescale (fullLine : String) : String :=
  match tsSearch fullLine.toList with
  | some m => String.mk (m.filter (fun c => c ≠ ' '))
  | none => "1ns"

/-- Regex `\$scope\s+(\w+)\s+(\w+)` via `re.match`; returns group 2. -/
def scopeMatch (line : String) : Option String :=
  if strStarts line "$scope" then
    match (strDrop line 6).toList with
    | [] => none
    | c :: rest =>
      if isPySpace c then
        let r1 := rest.dropWhile isPySpace
        match r1 with
        | [] => none
        | c1 :: _ =>
          if isWordChar c1 then
            let r2 := r1.dropWhile isWordChar
            match r2 with
            | [] => none
            | c2 :: rest2 =>
              if isPySpace c2 then
                let r3 := rest2.dropWhile isPySpace
                match r3 with
                | [] => none
                | c3 :: _ =>
                  if isWordChar c3 then some (String.mk (r3.takeWhile isWordChar))
                  else none
              else none
          else none
      else none
  else none

/-- Is the token exactly of the bracket form `\[[\d:]+\]`? -/
def tokIsBracket (s : String) : Bool :=
  match s.toList with
  | '[' :: rest =>
    let body := rest.takeWhile (fun c => c.isDigit || c = ':')
    body ≠ [] && rest.dropWhile (fun c => c.isDigit || c = ':') = [']']
  | _ => false

/-- Is the token of the form `\[[\d:]+\]` immediately followed by `$end`? -/
def tokBracketEnd (s : String) : Bool :=
  match s.toList with
  | '[' :: rest =>
    let body := rest.takeWhile (fun c => c.isDigit || c = ':')
    body ≠ [] &&
      (match rest.dropWhile (fun c => c.isDigit || c = ':') with
       | ']' :: tail => strStarts (String.mk tail) "$end"
       | _ => false)
  | _ => false

/-- Regex of `VCDParser._parse_var`,
`\$var\s+(\w+)\s+(\d+)\s+(\S+)\s+(\S+)(?:\s+\[[\d:]+\])?\s*\$end`, decided on
the whitespace-tokenized line (`\w+`, `\d+` and `\S+` are token-aligned on
whitespace-separated input, and the optional bracket may fuse with `$end`).
Returns the captures `(var_type, width, sig_id, name)`. -/
def varMatch (line : String) : Option (String × Nat × String × String) :=
  match splitWs line with
  | t0 :: t1 :: t2 :: t3 :: t4 :: rest =>
    if t0 = "$var" ∧ t1.toList ≠ [] ∧ t1.toList.all isWordChar ∧
        t2.toList ≠ [] ∧ t2.toList.all Char.isDigit then
      let result := (t1, (digitsToNat t2.toList).getD 0, t3, t4)
      match rest with
      | [] => none
      | t5 :: rest2 =>
        if strStarts t5 "$end" ∨ tokBracketEnd t5 then some result
        else if tokIsBracket t5 then
          match rest2 with
          | t6 :: _ => if strStarts t6 "$end" then some result else none
          | [] => none
        else none
    else none
  | _ => none

/-- Regex of the vector value line, `[bB]([01xXzZ]+)\s+(\S+)` via `re.match`:
returns `(value, sig_id)`. -/
def isBitChar (c : Char) : Bool :=
  c = '0' || c = '1' || c = 'x' || c = 'X' || c = 'z' || c = 'Z'

def binMatch (line : String) : Option (String × String) :=
  match line.toList with
  | [] => none
  | c :: rest =>
    if c = 'b' ∨ c = 'B' then
      let bits := rest.takeWhile isBitChar
      let r2 := rest.dropWhile isBitChar
      if bits ≠ [] then
        match r2 with
        | [] => none
        | w :: _ =>
          if isPySpace w then
            match r2.dropWhile isPySpace with
            | [] => none
            | r3 => some (String.mk bits,
                String.mk (r3.takeWhile (fun ch => !isPySpace ch)))
          else none
      else none
    else none

/-- Parser mode: header directives, inside a `$timescale` block, or the
value change section (after `$enddefinitions`). -/
inductive PMode
  | header
  | timescale
  | values
deriving DecidableEq

/-- Full state of the `VCDParser` fold. -/
structure PState where
  mode : PMode := PMode.header
  tsAcc : List String := []
  timescale : String := "1ns"
  scopes : List String := []
  decls : List VCDSignal := []
  sigKeys : List (String × Nat) := []
  idKeys : List (String × Nat) := []
  cur : Int := 0
  endTime : Int := 0
deriving DecidableEq

def initPState : PState := {}

/-- `VCDParser._parse_var` action on the state. -/
def varStep (st : PState) (line : String) : PState :=
  match varMatch line with
  | none => st
  | some (_, w, sid, nm) =>
    let scope := joinWith "." st.scopes
    let full := if scope ≠ "" then scope ++ "." ++ nm else nm
    let sig : VCDSignal := { id := sid, name := nm, width := w, scope := scope }
    let idx := st.decls.length
    { st with decls := st.decls ++ [sig],
              sigKeys := insertKey st.sigKeys full idx,
              idKeys := insertKey st.idKeys sid idx }

/-- Header-phase action for one (already stripped) line. -/
def headerStep (st : PState) (line : String) : PState :=
  if strStarts line "$timescale" then
    if strContains line "$end" then { st with timescale := extractTimescale line }
    else { st with mode := PMode.timescale, tsAcc := [line] }
  else if strStarts line "$scope" then
    match scopeMatch line with
    | some nm => { st with scopes := st.scopes ++ [nm] }
    | none => st
  else if strStarts line "$upscope" then
    { st with scopes := st.scopes.dropLast }
  else if strStarts line "$var" then varStep st line
  else if strStarts line "$enddefinitions" then { st with mode := PMode.values }
  else st

/-- Inner `$timescale ... $end` loop action for one (stripped) line. -/
def tsStep (st : PState) (line : String) : PState :=
  let content := st.tsAcc ++ [line]
  if strContains line "$end" then
    { st with mode := PMode.header, tsAcc := [],
              timescale := extractTimescale (joinWith " " content) }
  else { st with tsAcc := content }

/-- `VCDParser._record_value`: append `(current_time, value.lower())` to the
signal bound to `sig_id`; unbound ids are silently ignored. -/
def appendChange (t : Int) (v : String) (sg : VCDSignal) : VCDSignal :=
  { sg with values := sg.values ++ [(t, pyLower v)] }

def recordValue (st : PState) (sid : String) (v : String) : PState :=
  match st.idKeys.lookup sid with
  | some i => { st with decls := modIdx st.decls i (appendChange st.cur v) }
  | none => st

/-- Value-change-phase action for one (stripped) line. -/
def valueStep (st : PState) (line : String) : PState :=
  if line = "" then st
  else if strStarts line "#" then
    match pyInt (strDrop line 1) with
    | some t => { st with cur := t, endTime := max st.endTime t }
    | none => st
  else if strStarts line "$" then st
  else if strStarts line "b" ∨ strStarts line "B" then
    match binMatch line with
    | some (v, sid) => recordValue st sid v
    | none => st
  else if 2 ≤ strLen line ∧ isBitChar (line.toList.headD ' ') then
    recordValue st (pyStrip (strDrop line 1)) (strTake line 1)
  else st

/-- One line of `VCDParser.parse` (lines are stripped on entry). -/
def pstep (st : PState) (rawLine : String) : PState :=
  let line := pyStrip rawLine
  match st.mode with
  | PMode.header => headerStep st line
  | PMode.timescale => tsStep st line
  | PMode.values => valueStep st line

/-- `VCDParser.parse`: fold the per-line action over `content.split('\n')`
and assemble the `VCDData`. -/
def VCDParser.parse (content : String) : VCDData :=
  let st := (splitLines content).foldl pstep initPState
  { timescale := st.timescale,
    signals := st.sigKeys.map (fun kv => (kv.1, st.decls.getD kv.2 defaultVCDSignal)),
    end_time := st.endTime }

/-! Embedding of the `WaveDromGenerator` class of `vcd_to_wavedrom.py`. -/

/-- One entry of the generated WaveDrom `signal` list; the `data` key is
present exactly when the Python dict carries it. -/
structure WaveEntry where
  name : String
  wave : String
  data : Option (List String) := none
deriving DecidableEq

def defaultWaveEntry : WaveEntry :=
  { name := "", wave := "" }

/-- The generated WaveDrom document.  The `config`, `head` and `foot` keys
are opaque passthrough copies of fixed configuration dicts (never touched by
the core), so only the `signal` list is modelled. -/
structure WaveDoc where
  signal : List WaveEntry := []
deriving DecidableEq

/-- `SIGNAL_GROUPS` class constant. -/
def SIGNAL_GROUPS : List (List String) :=
  [["clk", "clock", "clk_ena"],
   ["rst", "reset", "rstn", "rst_n", "resetn"],
   ["full", "a_full", "almost_full"],
   ["rd_en", "re", "read", "rd"],
   ["dout", "rdata", "rd_data", "data_out", "q"],
   ["wr_en", "we", "write", "wr"],
   ["empty", "a_empty", "almost_empty"],
   ["din", "wdata", "wr_data", "data_in", "d"],
   ["en", "enable", "valid", "ready", "start", "done"],
   ["addr", "address", "data"]]

/-- `INTERNAL_SIGNAL_PATTERNS` class constant. -/
def INTERNAL_SIGNAL_PATTERNS : List String :=
  ["i", "j", "k", "genvar", "memory", "mem", "cnt_"]

/-- Generator configuration (`WaveDromGenerator.__init__` attributes).  The
`or`-defaulting of the constructor arguments is reflected in the default
values (`config.MAX_SIGNALS = 20`, `config.MAX_TIME_STEPS = 50`);
`io_port_names` is stored lower-cased. -/
structure WaveDromGenerator where
  max_signals : Nat := 20
  max_time_steps : Int := 50
  io_ports_only : Bool := true
  io_port_names : List String := []
  port_definitions : List Port := []
  use_port_order : Bool := true
  use_vcd_order : Bool := false
deriving DecidableEq

/-- `WaveDromGenerator._is_internal_signal`, pattern-loop part: first pattern
with `name == pattern or name.startswith(pattern + '_')` decides (with the
`cnt`/`count`/`counter` exemption); `none` when no pattern matches. -/
def patternVerdict (name nameLower : String) : List String → Option Bool
  | [] => none
  | p :: ps =>
    if name = p ∨ strStarts name (p ++ "_") then
      if nameLower ∈ (["cnt", "count", "counter"] : List String) then some false
      else some true
    else patternVerdict name nameLower ps

/-- `WaveDromGenerator._is_internal_signal`. -/
def is_internal_signal (g : WaveDromGenerator) (sig : VCDSignal) : Bool :=
  let nameLower := pyLower sig.name
  if g.io_port_names ≠ [] then !(g.io_port_names.contains nameLower)
  else if strLen sig.name = 1 ∧ strContains "ijklmn" sig.name then true
  else
    match patternVerdict sig.name nameLower INTERNAL_SIGNAL_PATTERNS with
    | some b => b
    | none => strContains (pyLower sig.scope) "internal"

/-- Dict comprehension `{p.name.lower(): p for p in port_definitions}`: the
last port with a given lower-cased name wins. -/
def lookupPortMap (ports : List Port) (key : String) : Option Port :=
  (ports.filter (fun p => pyLower p.name = key)).getLast?

/-- `WaveDromGenerator._get_display_name`. -/
def get_display_name (g : WaveDromGenerator) (sig : VCDSignal) : String :=
  match lookupPortMap g.port_definitions (pyLower sig.name) with
  | some p => p.get_full_name
  | none => sig.name

/-- Code-point comparison of strings (Python `str` ordering, used only as
the sort tie-break). -/
def strLtB (a b : String) : Bool :=
  go a.toList b.toList
where
  go : List Char → List Char → Bool
    | [], [] => false
    | [], _ :: _ => true
    | _ :: _, [] => false
    | x :: xs, y :: ys => x.toNat < y.toNat || (x = y && go xs ys)

def strLeB (a b : String) : Bool :=
  !(strLtB b a)

/-- Stable insertion into a sorted list: the new element goes after every
element it is not strictly below. -/
def stableInsert (le : α → α → Bool) (a : α) : List α → List α
  | [] => [a]
  | b :: bs =>
    if le a b && !(le b a) then a :: b :: bs else b :: stableInsert le a bs

/-- Python `sorted(xs, key=...)`: a stable sort.  For a total preorder
(`le` reflexive, transitive, total, as all the key orders below are) every
stable sort has the same output, so stable insertion sort is a faithful
model and reduces structurally in the kernel. -/
def pySorted (le : α → α → Bool) (l : List α) : List α :=
  l.foldl (fun acc a => stableInsert le a acc) []

/-- Inner pattern scan of `_sort_signals_by_group.group_key`. -/
def patScanIdx (nameLower : String) : List String → Nat → Option Nat
  | [], _ => none
  | p :: ps, i =>
    if p = nameLower ∨ strStarts nameLower p ∨ strEnds nameLower p then some i
    else patScanIdx nameLower ps (i + 1)

/-- Outer group scan of `_sort_signals_by_group.group_key`. -/
def groupScan (nameLower : String) : List (List String) → Nat → Option (Nat × Nat)
  | [], _ => none
  | grp :: rest, gi =>
    match patScanIdx nameLower grp 0 with
    | some pi => some (gi, pi)
    | none => groupScan nameLower rest (gi + 1)

/-- `group_key` of `_sort_signals_by_group`. -/
def group_key (sig : VCDSignal) : Nat × Nat × String :=
  match groupScan (pyLower sig.name) SIGNAL_GROUPS 0 with
  | some (gi, pi) => (gi, pi, sig.name)
  | none => (SIGNAL_GROUPS.length, 0, sig.name)

/-- Python tuple `<=` on the sort keys (lexicographic). -/
def groupKeyLe (a b : Nat × Nat × String) : Bool :=
  decide (a.1 < b.1) ||
    (a.1 = b.1 && (decide (a.2.1 < b.2.1) || (a.2.1 = b.2.1 && strLeB a.2.2 b.2.2)))

/-- `WaveDromGenerator._sort_signals_by_group` (Python `sorted` is a stable
merge sort on the key). -/
def sort_signals_by_group (sigs : List VCDSignal) : List VCDSignal :=
  pySorted (fun a b => groupKeyLe (group_key a) (group_key b)) sigs

/-- Index of the last port whose lower-cased name is `key` (the dict
comprehension `{p.name.lower(): i}` lets the last one win). -/
def lastPortIdx (ports : List Port) (key : String) : Option Nat :=
  go ports 0 none
where
  go : List Port → Nat → Option Nat → Option Nat
    | [], _, best => best
    | p :: ps, i, best =>
      go ps (i + 1) (if pyLower p.name = key then some i else best)

/-- `order_key` of `_sort_by_port_order` (`.get(..., 999)` default). -/
def port_order_key (g : WaveDromGenerator) (sig : VCDSignal) : Nat :=
  (lastPortIdx g.port_definitions (pyLower sig.name)).getD 999

/-- `WaveDromGenerator._sort_by_port_order`. -/
def sort_by_port_order (g : WaveDromGenerator) (sigs : List VCDSignal) :
    List VCDSignal :=
  if g.port_definitions = [] then sigs
  else pySorted (fun a b => decide (port_order_key g a ≤ port_order_key g b)) sigs

/-- `WaveDromGenerator._calculate_time_step`, clock-scan loop: walk the
signals in dict order; for a clock-named signal with recorded values, take
the strictly positive change times; with at least two of them and a positive
minimal consecutive gap, return that gap, else keep scanning. -/
def consecDiffs : List Int → List Int
  | a :: b :: rest => (b - a) :: consecDiffs (b :: rest)
  | _ => []

def listMin (l : List Int) : Int :=
  l.foldl min (l.headD 0)

def clockScan : List VCDSignal → Option Int
  | [] => none
  | s :: rest =>
    if strContains (pyLower s.name) "clk" ∧ s.values ≠ [] then
      let transitions := (s.values.map Prod.fst).filter (fun t => decide (0 < t))
      if 2 ≤ transitions.length then
        let mp := listMin (consecDiffs transitions)
        if 0 < mp then some mp else clockScan rest
      else clockScan rest
    else clockScan rest

/-- `WaveDromGenerator._calculate_time_step`. -/
def calculate_time_step (g : WaveDromGenerator) (vcd : VCDData) : Int :=
  if vcd.end_time = 0 then 1
  else
    match clockScan (vcd.signals.map Prod.snd) with
    | some p => p
    | none => max 1 (Int.fdiv vcd.end_time g.max_time_steps)

/-- `num_steps` of `_generate_wave_entry`:
`min(max_time_steps, max(1, end_time // time_step))`. -/
def num_steps_val (maxTimeSteps end_time time_step : Int) : Int :=
  min maxTimeSteps (max 1 (Int.fdiv end_time time_step))

/-- Is the signal clock-named (`'clk' in name.lower() or 'clock' in
name.lower()`)? -/
def isClockName (name : String) : Bool :=
  strContains (pyLower name) "clk" || strContains (pyLower name) "clock"

/-- Wave character appended by one step of `_generate_single_bit_wave`
(`last` is `None` before the first step). -/
def sbChar (value : String) (last : Option String) : Char :=
  if some value = last then '.'
  else if value = "1" then '1'
  else if value = "0" then '0'
  else if value = "x" ∨ value = "X" then 'x'
  else if value = "z" ∨ value = "Z" then 'z'
  else 'x'

/-- Step loop of `_generate_single_bit_wave`; `remaining` counts the steps
still to run (`remaining + step = num_steps` throughout), and the clock
special case replaces the whole wave and breaks at step 1. -/
def sbLoop (sig : VCDSignal) (ts : Int) (numSteps : Nat) (isClock : Bool) :
    Nat → Nat → Option String → String → String
  | 0, _, _, wave => wave
  | remaining + 1, step, last, wave =>
    let value := sig.get_value_at ((step : Int) * ts)
    if isClock ∧ 0 < step ∧ step = 1 then
      "p" ++ String.mk (List.replicate (numSteps - 1) '.')
    else
      sbLoop sig ts numSteps isClock remaining (step + 1) (some value)
        (wave.push (sbChar value last))

/-- `WaveDromGenerator._generate_single_bit_wave`. -/
def generate_single_bit_wave (g : WaveDromGenerator) (sig : VCDSignal)
    (ts : Int) (numSteps : Nat) : WaveEntry :=
  let isClock := isClockName sig.name
  { name := get_display_name g sig,
    wave := sbLoop sig ts numSteps isClock numSteps 0 none "" }

/-- Uppercase hexadecimal digit. -/
def hexDigit (n : Nat) : Char :=
  if n < 10 then Char.ofNat (48 + n) else Char.ofNat (55 + n)

/-- Hex digits of `n`, least significant first; `fuel` bounds the recursion
(the bit-length of the source literal always suffices). -/
def natToHexRev : Nat → Nat → List Char
  | 0, _ => []
  | _ + 1, 0 => []
  | fuel + 1, n + 1 => hexDigit ((n + 1) % 16) :: natToHexRev fuel ((n + 1) / 16)

/-- Python `format(n, 'X')`. -/
def formatHexUpper (fuel : Nat) (n : Nat) : String :=
  if n = 0 then "0" else String.mk (natToHexRev fuel n).reverse

/-- Step loop of `_generate_multi_bit_wave`, accumulating the wave string
and the `data` list. -/
def mbLoop (sig : VCDSignal) (ts : Int) :
    Nat → Nat → Option String → String → List String → String × List String
  | 0, _, _, wave, data => (wave, data)
  | remaining + 1, step, last, wave, data =>
    let value := sig.get_value_at ((step : Int) * ts)
    if some value = last then
      mbLoop sig ts remaining (step + 1) (some value) (wave.push '.') data
    else if strContains (pyLower value) "x" then
      mbLoop sig ts remaining (step + 1) (some value) (wave.push 'x') data
    else if strContains (pyLower value) "z" then
      mbLoop sig ts remaining (step + 1) (some value) (wave.push 'z') data
    else
      match binToNat value.toList with
      | some n =>
        mbLoop sig ts remaining (step + 1) (some value) (wave.push '=')
          (data ++ [formatHexUpper (strLen value) n])
      | none =>
        mbLoop sig ts remaining (step + 1) (some value) (wave.push '=')
          (data ++ [strTake value 8])

/-- `WaveDromGenerator._generate_multi_bit_wave`; the `data` key is set only
when the list is non-empty. -/
def generate_multi_bit_wave (g : WaveDromGenerator) (sig : VCDSignal)
    (ts : Int) (numSteps : Nat) : WaveEntry :=
  let wd := mbLoop sig ts numSteps 0 none "" []
  { name := get_display_name g sig, wave := wd.1,
    data := if wd.2 = [] then none else some wd.2 }

/-- `WaveDromGenerator._generate_wave_entry`: `None` for a signal without
recorded values; otherwise dispatch on the width. -/
def generate_wave_entry (g : WaveDromGenerator) (sig : VCDSignal)
    (ts et : Int) : Option WaveEntry :=
  if sig.values = [] then none
  else
    let n := (num_steps_val g.max_time_steps et ts).toNat
    if sig.width = 1 then some (generate_single_bit_wave g sig ts n)
    else some (generate_multi_bit_wave g sig ts n)

/-- Update of `self.io_port_names` at the top of `generate` when the
argument is a non-empty list. -/
def applyIoNames (g : WaveDromGenerator) : Option (List String) → WaveDromGenerator
  | some l => if l ≠ [] then { g with io_port_names := l.map pyLower } else g
  | none => g

/-- Signal selection of `WaveDromGenerator.generate`: filter internal
signals, order, and truncate to `max_signals`. -/
def selectSignals (g : WaveDromGenerator) (vcd : VCDData) : List VCDSignal :=
  let signalsList := vcd.signals.map Prod.snd
  let signalsList :=
    if g.io_ports_only then signalsList.filter (fun s => !is_internal_signal g s)
    else signalsList
  let sortedSignals :=
    if g.use_vcd_order then signalsList
    else if g.use_port_order ∧ g.port_definitions ≠ [] then
      sort_by_port_order g signalsList
    else sort_signals_by_group signalsList
  sortedSignals.take g.max_signals

/-- `WaveDromGenerator.generate`. -/
def generate (g : WaveDromGenerator) (vcd : VCDData)
    (io_port_names : Option (List String)) : WaveDoc :=
  if vcd.signals = [] then {}
  else
    let g2 := applyIoNames g io_port_names
    let time_step := calculate_time_step g2 vcd
    { signal := (selectSignals g2 vcd).filterMap
        (fun s => generate_wave_entry g2 s time_step vcd.end_time) }

/-! Embedding of `signal_order_extractor.py`: `normalize_ocr_chars`,
`fuzzy_match_score` and `reorder_wavedrom_signals`.  Float scores are
modelled as exact rationals. -/

/-- `normalize_ocr_chars`: lower-case then the replacement chain
`'l'→'i'`, `'1'→'i'`, `'0'→'o'` (single-character replacements whose
outputs are not later keys, hence a per-character map). -/
def normalize_ocr_chars (text : String) : String :=
  String.mk (((pyLower text).toList).map (fun c =>
    if c = 'l' then 'i' else if c = '1' then 'i' else if c = '0' then 'o' else c))

/-- Indices of a character in a list. -/
def idxsOf (c : Char) (cs : List Char) : List Nat :=
  go cs 0
where
  go : List Char → Nat → List Nat
    | [], _ => []
    | x :: xs, i => if x = c then i :: go xs (i + 1) else go xs (i + 1)

/-- `re.sub(r'\[.*\]', '', s)`: one greedy match from the first `[` that has
some `]` after it through the last `]` of the string; no text remains for a
second match. -/
def stripBitRange (s : String) : String :=
  let cs := s.toList
  let opens := idxsOf '[' cs
  let closes := idxsOf ']' cs
  match opens.find? (fun i => closes.any (fun j => decide (i < j))) with
  | some i =>
    match (closes.filter (fun j => decide (i < j))).getLast? with
    | some j => String.mk (cs.take i ++ cs.drop (j + 1))
    | none => s
  | none => s

/-- The confusable single-character groups of `fuzzy_match_score`. -/
def confusable1 (a b : String) : Bool :=
  (a ∈ (["i", "l", "1"] : List String) && b ∈ (["i", "l", "1"] : List String)) ||
  (a ∈ (["o", "0", "a"] : List String) && b ∈ (["o", "0", "a"] : List String))

/-- Known-prefix rule: some listed prefix of the candidate strips to the
reference base name. -/
def pfxRuleHit (ocrBase sigBase : String) : Bool :=
  (["out_", "in_", "o_", "i_", "prev_"] : List String).any (fun p =>
    strStarts sigBase p && strDrop sigBase (strLen p) = ocrBase)

/-- Positional character matches over the common length. -/
def posMatches : List Char → List Char → Nat
  | a :: as, b :: bs => (if a = b then 1 else 0) + posMatches as bs
  | _, _ => 0

/-- Common characters, each candidate character consumed at most once
(`sig_chars.remove(c)` removes the first occurrence). -/
def countCommon : List Char → List Char → Nat
  | [], _ => 0
  | c :: cs, pool =>
    if c ∈ pool then 1 + countCommon cs (pool.erase c) else countCommon cs pool

/-- Length of the shared literal prefix. -/
def sharedStartLen : List Char → List Char → Nat
  | a :: as, b :: bs => if a = b then 1 + sharedStartLen as bs else 0
  | _, _ => 0

/-- `fuzzy_match_score(ocr_name, signal_name)` with exact rational
arithmetic in place of floats. -/
def fuzzy_match_score (ocr_name signal_name : String) : ℚ :=
  let ocr_lower := pyLower ocr_name
  let sig_lower := pyLower signal_name
  if ocr_lower = sig_lower then 1
  else if normalize_ocr_chars ocr_lower = normalize_ocr_chars sig_lower then 0.98
  else if strLen ocr_lower = 1 ∧ strLen sig_lower = 1 ∧ confusable1 ocr_lower sig_lower then 0.95
  else
    let ocr_base := stripBitRange ocr_lower
    let sig_base := stripBitRange sig_lower
    if ocr_base = sig_base then 0.95
    else if pfxRuleHit ocr_base sig_base then 0.9
    else if strEnds sig_base ocr_base ∧ 3 ≤ strLen ocr_base then 0.85
    else if 3 ≤ strLen ocr_base ∧ 3 ≤ strLen sig_base ∧
        inSeg ocr_base.toList sig_base.toList then
      0.8 * ((strLen ocr_base : ℚ) / (strLen sig_base : ℚ))
    else if 3 ≤ strLen ocr_base ∧ 3 ≤ strLen sig_base ∧
        inSeg sig_base.toList ocr_base.toList then
      0.8 * ((strLen sig_base : ℚ) / (strLen ocr_base : ℚ))
    else
      let maxLen := max (strLen ocr_base) (strLen sig_base)
      if maxLen = 0 then 0
      else
        let position_score : ℚ := (posMatches ocr_base.toList sig_base.toList : ℚ) / maxLen
        let char_score : ℚ := (countCommon ocr_base.toList sig_base.toList : ℚ) / maxLen
        let similarity := 0.6 * position_score + 0.4 * char_score
        let pl := sharedStartLen ocr_base.toList sig_base.toList
        let similarity :=
          if 2 ≤ pl then similarity + 0.15 * ((pl : ℚ) / maxLen) else similarity
        min similarity 0.85

/-- Python `enumerate`. -/
def pyEnum (l : List α) : List (Nat × α) :=
  go l 0
where
  go : List α → Nat → List (Nat × α)
    | [], _ => []
    | a :: as, i => (i, a) :: go as (i + 1)

/-- Inner-loop state of `reorder_wavedrom_signals`: best candidate index and
its score (initially `None` and the 0.4 threshold). -/
structure BestState where
  bestIdx : Option Nat
  bestScore : ℚ
deriving DecidableEq

/-- One candidate visit of the inner loop: used indices are skipped,
strictly better scores win. -/
def bestStep (ref : String) (used : List Nat) (st : BestState)
    (ia : Nat × WaveEntry) : BestState :=
  if ia.1 ∈ used then st
  else
    let score := fuzzy_match_score ref ia.2.name
    if st.bestScore < score then { bestIdx := some ia.1, bestScore := score }
    else st

/-- Inner loop of `reorder_wavedrom_signals` for one reference name. -/
def best_match (ref : String) (avail : List WaveEntry) (used : List Nat) :
    Option Nat :=
  ((pyEnum avail).foldl (bestStep ref used) ⟨none, 0.4⟩).bestIdx

/-- Outer loop of `reorder_wavedrom_signals`: walk the reference names,
collecting matched entries and the used index set. -/
def reorderLoop (avail : List WaveEntry) :
    List String → List Nat → List WaveEntry → List WaveEntry × List Nat
  | [], used, acc => (acc, used)
  | r :: rs, used, acc =>
    match best_match r avail used with
    | some i =>
      reorderLoop avail rs (used ++ [i]) (acc ++ [avail.getD i defaultWaveEntry])
    | none => reorderLoop avail rs used acc

/-- `reorder_wavedrom_signals`: empty signal list or empty reference order
returns the document unchanged; otherwise greedy matching, optionally
followed by the unmatched candidates in original order. -/
def reorder_wavedrom_signals (doc : WaveDoc) (reference_order : List String)
    (filter_to_reference : Bool) : WaveDoc :=
  if doc.signal = [] ∨ reference_order = [] then doc
  else
    let avail := doc.signal
    let rl := reorderLoop avail reference_order [] []
    let reordered :=
      if filter_to_reference then rl.1
      else rl.1 ++
        ((pyEnum avail).filter (fun p => decide (p.1 ∉ rl.2))).map Prod.snd
    { doc with signal := reordered }

/-! Specification-side definitions.  These follow the words of the claims
(not the code) and are compared with the embedded functions by the
refinement theorems below. -/

/-- Spec wording of claim C5: "the minimum inter-transition gap" of one
clock candidate — the signal qualifies when it is clock-named, has recorded
values, at least two strictly positive change times, and a positive minimal
consecutive gap. -/
def clockCandidateSpec (s : VCDSignal) : Option Int :=
  if strContains (pyLower s.name) "clk" ∧ s.values ≠ [] then
    let transitions := (s.values.map Prod.fst).filter (fun t => decide (0 < t))
    if 2 ≤ transitions.length ∧ 0 < listMin (consecDiffs transitions) then
      some (listMin (consecDiffs transitions))
    else none
  else none

/-- Spec wording of claim C5 for the whole step choice: the first qualifying
clock's gap, else `max(1, end_time // maxTimeSteps)`, and 1 when
`end_time = 0`. -/
def timeStepSpec (g : WaveDromGenerator) (vcd : VCDData) : Int :=
  if vcd.end_time = 0 then 1
  else
    ((vcd.signals.map Prod.snd).findSome? clockCandidateSpec).getD
      (max 1 (Int.fdiv vcd.end_time g.max_time_steps))

/-- Spec wording of claim C8, candidate pick: among the (still unused)
candidates, the one with the highest fuzzy score strictly above the 0.4
threshold, earliest first on ties. -/
def pickStepSpec (ref : String) (st : Option (Nat × WaveEntry) × ℚ)
    (ia : Nat × WaveEntry) : Option (Nat × WaveEntry) × ℚ :=
  let score := fuzzy_match_score ref ia.2.name
  if st.2 < score then (some ia, score) else st

def pickBestSpec (ref : String) (avail : List (Nat × WaveEntry)) :
    Option (Nat × WaveEntry) :=
  (avail.foldl (pickStepSpec ref) (none, 0.4)).1

/-- Spec wording of claim C8, assignment: greedy, order-preserving,
one-to-one — walk the reference names in order, assign each the best unused
candidate (removing it from the pool); a reference name without a match
contributes nothing.  Returns the matches in reference order and the
leftover pool. -/
def greedySpec : List String → List (Nat × WaveEntry) →
    List WaveEntry × List (Nat × WaveEntry)
  | [], avail => ([], avail)
  | r :: rs, avail =>
    match pickBestSpec r avail with
    | none => greedySpec rs avail
    | some (i, e) =>
      let rest := greedySpec rs (avail.filter (fun p => p.1 ≠ i))
      (e :: rest.1, rest.2)

/-- Spec wording of claim C8: number of reference names that found a match. -/
def matchedCountSpec (refs : List String) (avail : List (Nat × WaveEntry)) : Nat :=
  (greedySpec refs avail).1.length

/-- Spec wording of claim C8, whole reconciliation: matched entries in
reference order, then (only when `filterToReference` is false) the unmatched
candidates in their original order. -/
def reorderSpec (doc : WaveDoc) (refs : List String) (filter_to_reference : Bool) :
    WaveDoc :=
  let res := greedySpec refs (pyEnum doc.signal)
  { doc with signal :=
      res.1 ++ (if filter_to_reference then [] else res.2.map Prod.snd) }

/-! Concrete inputs used by counterexamples and witnesses. -/

def defaultGenerator : WaveDromGenerator := {}

/-- The event log of claim C3: the two declarations and the value changes
`#0 0! b00000000 #`, `#5 1!`, `#15 b00000001 #`. -/
def c3log : String :=
  "$var wire 1 ! clk $end\n$var wire 8 # count [7:0] $end\n" ++
  "$enddefinitions $end\n#0\n0!\nb00000000 #\n#5\n1!\n#15\nb00000001 #"

/-- Clock signal of the C5 counterexample: two recorded transitions, at
times 0 and 5. -/
def cex5clk : VCDSignal :=
  { id := "!", name := "clk", width := 1, scope := "",
    values := [(0, "0"), (5, "1")] }

def cex5 : VCDData :=
  { timescale := "1ns", signals := [("clk", cex5clk)], end_time := 5 }

/-- C7 counterexample input: timestamps go backwards (`#10` then `#3`). -/
def c7cexLog : String :=
  "$var wire 1 ! a $end\n$enddefinitions $end\n#10\n1!\n#3\n0!"

/-- C7 witness input: well-ordered timestamps. -/
def c7okLog : String :=
  "$var wire 1 ! a $end\n$enddefinitions $end\n#0\n1!\n#5\n0!"

/-- Single-signal document used by the C8 counterexample. -/
def c8doc : WaveDoc :=
  { signal := [{ name := "a", wave := "0", data := none }] }

/-- Two-signal document used by the C8/C9 witnesses. -/
def c9doc : WaveDoc :=
  { signal := [{ name := "clk", wave := "p.", data := none },
               { name := "data", wave := "==", data := some ["0", "1"] }] }

/-! Helper lemmas about the wave-building loops. -/

theorem strLen_mk (l : List Char) : strLen (String.mk l) = l.length := rfl

theorem strLen_push (s : String) (c : Char) :
    strLen (s.push c) = strLen s + 1 := by
  cases s
  simp [strLen, String.push, String.toList]

theorem strLen_append (a b : String) :
    strLen (a ++ b) = strLen a + strLen b := by
  cases a; cases b
  simp [strLen, String.toList]

theorem count_push (s : String) (c d : Char) :
    (s.push c).toList.count d = s.toList.count d + (if c = d then 1 else 0) := by
  cases s
  simp [String.push, String.toList, List.count_append, List.count_cons]

theorem sbLoop_len (sig : VCDSignal) (ts : Int) (numSteps : Nat) (isClock : Bool) :
    ∀ (remaining step : Nat) (last : Option String) (wave : String),
      step + remaining = numSteps → strLen wave = step →
      strLen (sbLoop sig ts numSteps isClock remaining step last wave) = numSteps := by
  intro remaining
  induction remaining with
  | zero =>
    intro step last wave hsum hlen
    simpa [sbLoop, hlen] using hsum
  | succ n ih =>
    intro step last wave hsum hlen
    rw [sbLoop]
    split
    · rename_i hcond
      obtain ⟨-, -, hstep⟩ := hcond
      have hrep : strLen (String.mk (List.replicate (numSteps - 1) '.')) =
          numSteps - 1 := by
        rw [strLen_mk, List.length_replicate]
      rw [strLen_append, hrep]
      have hp : strLen "p" = 1 := rfl
      rw [hp]
      omega
    · exact ih (step + 1) _ _ (by omega) (by rw [strLen_push, hlen])

theorem mbLoop_len (sig : VCDSignal) (ts : Int) :
    ∀ (remaining step : Nat) (last : Option String) (wave : String)
      (data : List String),
      strLen (mbLoop sig ts remaining step last wave data).1 =
        strLen wave + remaining := by
  intro remaining
  induction remaining with
  | zero => intro step last wave data; simp [mbLoop]
  | succ n ih =>
    intro step last wave data
    rw [mbLoop]
    split
    · rw [ih, strLen_push]; omega
    · split
      · rw [ih, strLen_push]; omega
      · split
        · rw [ih, strLen_push]; omega
        · split
          · rw [ih, strLen_push]; omega
          · rw [ih, strLen_push]; omega

theorem mbLoop_count (sig : VCDSignal) (ts : Int) :
    ∀ (remaining step : Nat) (last : Option String) (wave : String)
      (data : List String),
      wave.toList.count '=' = data.length →
      ((mbLoop sig ts remaining step last wave data).1.toList.count '=' =
        (mbLoop sig ts remaining step last wave data).2.length) := by
  intro remaining
  induction remaining with
  | zero => intro step last wave data h; simpa [mbLoop] using h
  | succ n ih =>
    intro step last wave data h
    rw [mbLoop]
    split
    · exact ih _ _ _ _ (by rw [count_push, h]; simp)
    · split
      · exact ih _ _ _ _ (by rw [count_push, h]; simp)
      · split
        · exact ih _ _ _ _ (by rw [count_push, h]; simp)
        · split
          · exact ih _ _ _ _ (by rw [count_push, h]; simp)
          · exact ih _ _ _ _ (by rw [count_push, h]; simp)

/-- Any entry produced by `_generate_wave_entry` has the step count as its
wave length. -/
theorem gwe_len (g : WaveDromGenerator) (sig : VCDSignal) (ts et : Int)
    (e : WaveEntry) (h : generate_wave_entry g sig ts et = some e) :
    strLen e.wave = (num_steps_val g.max_time_steps et ts).toNat := by
  rw [generate_wave_entry] at h
  split at h
  · exact absurd h (by simp)
  · split at h
    · cases h
      exact sbLoop_len _ _ _ _ _ 0 none "" (by omega) rfl
    · cases h
      have := mbLoop_len sig ts (num_steps_val g.max_time_steps et ts).toNat
        0 none "" []
      simpa [generate_multi_bit_wave, show strLen "" = 0 from rfl] using this

theorem applyIoNames_max (g : WaveDromGenerator) (io : Option (List String)) :
    (applyIoNames g io).max_time_steps = g.max_time_steps := by
  cases io with
  | none => rfl
  | some l =>
    rw [applyIoNames]
    split <;> rfl

theorem num_steps_pos (maxTS et ts : Int) (h : 1 ≤ maxTS) :
    1 ≤ num_steps_val maxTS et ts :=
  le_min h (le_max_left 1 _)

/-- C1: every entry of a generated WaveDrom document has
`len(wave) = num_steps` with
`num_steps = min(maxTimeSteps, max(1, end_time // step))` for the document's
chosen time step (the configured `maxTimeSteps` bound is positive, as in the
shipped configuration). -/
theorem spec_c1 (g : WaveDromGenerator) (vcd : VCDData)
    (io : Option (List String)) (hmax : 1 ≤ g.max_time_steps) :
    ∀ e ∈ (generate g vcd io).signal,
      (strLen e.wave : Int) =
        num_steps_val g.max_time_steps vcd.end_time
          (calculate_time_step (applyIoNames g io) vcd) := by
  intro e he
  rw [generate] at he
  split at he
  · simp at he
  · rw [List.mem_filterMap] at he
    obtain ⟨s, _, hsome⟩ := he
    rw [gwe_len _ _ _ _ _ hsome, applyIoNames_max]
    rw [Int.toNat_of_nonneg]
    exact le_trans zero_le_one (num_steps_pos _ _ _ hmax)

theorem spec_c1_witness :
    (strLen (WaveEntry.mk "clk" "p.............." none).wave : Int) =
      num_steps_val defaultGenerator.max_time_steps
        (VCDParser.parse c3log).end_time
        (calculate_time_step (applyIoNames defaultGenerator none)
          (VCDParser.parse c3log)) :=
  spec_c1 defaultGenerator (VCDParser.parse c3log) none (by decide)
    (WaveEntry.mk "clk" "p.............." none) (by decide)

/-- C2: a multi-bit entry has as many `=` characters in its wave as elements
in its data array, and the data key is present exactly when that count is
non-zero. -/
theorem spec_c2 (g : WaveDromGenerator) (sig : VCDSignal) (ts et : Int)
    (hw : sig.width ≠ 1) (hv : sig.values ≠ []) :
    ∃ e, generate_wave_entry g sig ts et = some e ∧
      e.wave.toList.count '=' = (e.data.getD []).length ∧
      (e.data.isSome ↔ e.wave.toList.count '=' ≠ 0) := by
  rw [generate_wave_entry, if_neg hv, if_neg hw]
  refine ⟨_, rfl, ?_⟩
  simp only [generate_multi_bit_wave]
  have hcount := mbLoop_count sig ts
    (num_steps_val g.max_time_steps et ts).toNat 0 none "" [] (by simp)
  constructor
  · split
    · rename_i hnil
      simpa [hnil] using hcount
    · simpa using hcount
  · split
    · rename_i hnil
      simp [hnil] at hcount
      simp [hcount]
    · rename_i hnil
      simp only [Option.isSome_some, true_iff, hcount]
      exact Nat.pos_iff_ne_zero.mp (List.length_pos.mpr hnil)

theorem spec_c2_witness :
    ∃ e, generate_wave_entry defaultGenerator
        (VCDSignal.mk "#" "count" 8 "" [(0, "00000000"), (15, "00000001")])
        5 15 = some e ∧
      e.wave.toList.count '=' = (e.data.getD []).length ∧
      (e.data.isSome ↔ e.wave.toList.count '=' ≠ 0) :=
  spec_c2 defaultGenerator
    (VCDSignal.mk "#" "count" 8 "" [(0, "00000000"), (15, "00000001")])
    5 15 (by decide) (by decide)

/-- C3 counterexample: on the claim's event log, encoding `count` with step
size 5 over 3 steps samples times 0, 5 and 10 — all before the change at
time 15 — so the wave is "=.." with data ["0"], not the claimed "=.=" with
data ["0", "1"]. -/
theorem spec_c3_cex :
    ((VCDParser.parse c3log).signals.lookup "count").map
        (fun s => generate_wave_entry defaultGenerator s 5
          (VCDParser.parse c3log).end_time) =
      some (some (WaveEntry.mk "count" "=.." (some ["0"]))) ∧
    ("=.." : String) ≠ "=.=" ∧ (some ["0"] : Option (List String)) ≠ some ["0", "1"] := by
  decide

/-- C3 (amended): parsing the claim's event log and encoding with step size
5 over 3 steps yields a clk entry with wave "p.." and a count entry with
wave "=.." and data ["0"] (the change at time 15 lies beyond the last
sampled step boundary, time 10). -/
theorem spec_c3_amended :
    (VCDParser.parse c3log).end_time = 15 ∧
    (num_steps_val defaultGenerator.max_time_steps 15 5).toNat = 3 ∧
    ((VCDParser.parse c3log).signals.lookup "clk").map
        (fun s => generate_wave_entry defaultGenerator s 5 15) =
      some (some (WaveEntry.mk "clk" "p.." none)) ∧
    ((VCDParser.parse c3log).signals.lookup "count").map
        (fun s => generate_wave_entry defaultGenerator s 5 15) =
      some (some (WaveEntry.mk "count" "=.." (some ["0"]))) := by
  decide

/-- C4: a width-1 clock-named signal with at least one recorded change,
encoded over 5 steps, always produces the wave "p...." whatever the sampled
values are. -/
theorem spec_c4 (g : WaveDromGenerator) (sig : VCDSignal) (ts et : Int)
    (hw : sig.width = 1) (hv : sig.values ≠ [])
    (hclk : isClockName sig.name = true)
    (hn : (num_steps_val g.max_time_steps et ts).toNat = 5) :
    ∃ e, generate_wave_entry g sig ts et = some e ∧ e.wave = "p...." := by
  have hgen : generate_wave_entry g sig ts et =
      some (generate_single_bit_wave g sig ts 5) := by
    rw [generate_wave_entry, if_neg hv]
    simp only [hn, if_pos hw]
  refine ⟨_, hgen, ?_⟩
  simp only [generate_single_bit_wave, hclk]
  simp [sbLoop]

theorem spec_c4_witness :
    ∃ e, generate_wave_entry defaultGenerator
        (VCDSignal.mk "!" "clk" 1 "" [(0, "0")]) 2 10 = some e ∧
      e.wave = "p...." :=
  spec_c4 defaultGenerator (VCDSignal.mk "!" "clk" 1 "" [(0, "0")]) 2 10
    (by decide) (by decide) (by decide) (by decide)

/-- The clock scan loop of `_calculate_time_step` equals the first
qualifying clock candidate in declaration order. -/
theorem clockScan_eq (sigs : List VCDSignal) :
    clockScan sigs = sigs.findSome? clockCandidateSpec := by
  induction sigs with
  | nil => rfl
  | cons s rest ih =>
    simp only [clockScan, clockCandidateSpec, List.findSome?_cons]
    split_ifs with h1 h2 h3 <;> simp_all

/-- C5 (amended): the chosen step size is 1 when `end_time = 0`; otherwise
it is the minimum gap between consecutive strictly positive change times of
the first clock-named signal that has at least two such times and a positive
minimum gap; otherwise `max(1, end_time // maxTimeSteps)`.  (The claim as
stated counts the transition at time 0 and allows non-positive gaps; the
code does not.) -/
theorem spec_c5 (g : WaveDromGenerator) (vcd : VCDData) :
    calculate_time_step g vcd = timeStepSpec g vcd := by
  by_cases h : vcd.end_time = 0
  · rw [calculate_time_step, timeStepSpec, if_pos h, if_pos h]
  · rw [calculate_time_step, timeStepSpec, if_neg h, if_neg h, clockScan_eq]
    cases (vcd.signals.map Prod.snd).findSome? clockCandidateSpec <;> rfl

/-- C5 counterexample: `cex5clk` has two recorded transitions (times 0 and
5) with minimum inter-transition gap 5, and `end_time = 5 ≠ 0`, yet the
encoder's step is `max(1, 5 // 50) = 1`, not 5 — the transition at time 0 is
discarded by the `t > 0` filter, leaving fewer than two transitions. -/
theorem spec_c5_cex :
    cex5clk.values.length = 2 ∧
    listMin (consecDiffs (cex5clk.values.map Prod.fst)) = 5 ∧
    cex5.end_time ≠ 0 ∧
    calculate_time_step defaultGenerator cex5 = 1 ∧ (1 : Int) ≠ 5 := by
  decide

/-- C6 (amended): when a declared bit bound does not resolve to an integer
literal, the ANSI path builds the port with width 8 and synthetic bounds
7:0, but the non-ANSI path applies no such fallback: the port keeps the
dataclass default width 1 and the partially resolved bounds. -/
theorem spec_c6 (direction : String) (sg rg sgn : Bool) (ms ls nm : String)
    (h : parse_bit_index (some ms) = none ∨ parse_bit_index (some ls) = none) :
    (ansiPortOfMatch ⟨direction, sg, some ms, some ls, nm⟩).width = 8 ∧
    (ansiPortOfMatch ⟨direction, sg, some ms, some ls, nm⟩).msb = some 7 ∧
    (ansiPortOfMatch ⟨direction, sg, some ms, some ls, nm⟩).lsb = some 0 ∧
    (nonAnsiPortOfName direction rg sgn (parse_bit_index (some ms))
      (parse_bit_index (some ls)) nm).width = 1 ∧
    (nonAnsiPortOfName direction rg sgn (parse_bit_index (some ms))
      (parse_bit_index (some ls)) nm).msb = parse_bit_index (some ms) ∧
    (nonAnsiPortOfName direction rg sgn (parse_bit_index (some ms))
      (parse_bit_index (some ls)) nm).lsb = parse_bit_index (some ls) := by
  cases hm : parse_bit_index (some ms) with
  | none =>
    cases hl : parse_bit_index (some ls) with
    | none =>
      simp [ansiPortOfMatch, nonAnsiPortOfName, Port.postInit, hm, hl]
    | some li =>
      simp [ansiPortOfMatch, nonAnsiPortOfName, Port.postInit, hm, hl]
  | some mi =>
    cases hl : parse_bit_index (some ls) with
    | none =>
      simp [ansiPortOfMatch, nonAnsiPortOfName, Port.postInit, hm, hl]
    | some li =>
      rw [hm, hl] at h
      rcases h with h | h <;> exact absurd h (by simp)

theorem spec_c6_witness :
    (ansiPortOfMatch ⟨"input", false, some "WIDTH-1", some "0", "data"⟩).width = 8 ∧
    (ansiPortOfMatch ⟨"input", false, some "WIDTH-1", some "0", "data"⟩).msb = some 7 ∧
    (ansiPortOfMatch ⟨"input", false, some "WIDTH-1", some "0", "data"⟩).lsb = some 0 ∧
    (nonAnsiPortOfName "input" false false (parse_bit_index (some "WIDTH-1"))
      (parse_bit_index (some "0")) "data").width = 1 ∧
    (nonAnsiPortOfName "input" false false (parse_bit_index (some "WIDTH-1"))
      (parse_bit_index (some "0")) "data").msb = parse_bit_index (some "WIDTH-1") ∧
    (nonAnsiPortOfName "input" false false (parse_bit_index (some "WIDTH-1"))
      (parse_bit_index (some "0")) "data").lsb = parse_bit_index (some "0") :=
  spec_c6 "input" false false false "WIDTH-1" "0" "data" (Or.inl (by decide))

/-- C6 counterexample: with the symbolic bound `WIDTH-1`, the non-ANSI path
yields width 1 with bounds `None`/`0`, not the claimed width 8 with bounds
7:0. -/
theorem spec_c6_cex :
    nonAnsiPortOfName "input" false false (parse_bit_index (some "WIDTH-1"))
        (parse_bit_index (some "0")) "data" =
      { name := "data", direction := "input", width := 1,
        msb := none, lsb := some 0, is_reg := false, is_signed := false } ∧
    ¬((nonAnsiPortOfName "input" false false (parse_bit_index (some "WIDTH-1"))
        (parse_bit_index (some "0")) "data").width = 8 ∧
      (nonAnsiPortOfName "input" false false (parse_bit_index (some "WIDTH-1"))
        (parse_bit_index (some "0")) "data").msb = some 7) := by
  decide

/-- C10: a signal with an empty change list produces no wave entry, and
every entry of a generated document stems from a selected signal with a
non-empty change list — change-free signals are silently omitted. -/
theorem spec_c10 (g : WaveDromGenerator) (vcd : VCDData)
    (io : Option (List String)) :
    (∀ (s : VCDSignal) (ts et : Int), s.values = [] →
      generate_wave_entry g s ts et = none) ∧
    ∀ e ∈ (generate g vcd io).signal,
      ∃ s ∈ selectSignals (applyIoNames g io) vcd, s.values ≠ [] ∧
        generate_wave_entry (applyIoNames g io) s
          (calculate_time_step (applyIoNames g io) vcd) vcd.end_time = some e := by
  constructor
  · intro s ts et hempty
    rw [generate_wave_entry, if_pos hempty]
  · intro e he
    rw [generate] at he
    split at he
    · simp at he
    · rw [List.mem_filterMap] at he
      obtain ⟨s, hmem, hsome⟩ := he
      refine ⟨s, hmem, ?_, hsome⟩
      intro hempty
      rw [generate_wave_entry, if_pos hempty] at hsome
      exact Option.noConfusion hsome

theorem spec_c10_witness :
    generate_wave_entry defaultGenerator defaultVCDSignal 1 1 = none ∧
    ∃ s ∈ selectSignals (applyIoNames defaultGenerator none)
        (VCDParser.parse c3log), s.values ≠ [] ∧
      generate_wave_entry (applyIoNames defaultGenerator none) s
          (calculate_time_step (applyIoNames defaultGenerator none)
            (VCDParser.parse c3log)) (VCDParser.parse c3log).end_time =
        some (WaveEntry.mk "clk" "p.............." none) :=
  ⟨(spec_c10 defaultGenerator (VCDParser.parse c3log) none).1
      defaultVCDSignal 1 1 rfl,
   (spec_c10 defaultGenerator (VCDParser.parse c3log) none).2
      (WaveEntry.mk "clk" "p.............." none) (by decide)⟩

/-! C7: traces are time-ordered when the timestamp stream is. -/

theorem modIdx_forall {α : Type} {P : α → Prop} :
    ∀ (l : List α) (i : Nat) (f : α → α),
      (∀ x ∈ l, P x) → (∀ x, P x → P (f x)) → ∀ y ∈ modIdx l i f, P y := by
  intro l
  induction l with
  | nil => intro i f hP hf y hy; simp [modIdx] at hy
  | cons a as ih =>
    intro i f hP hf y hy
    cases i with
    | zero =>
      rw [modIdx, List.mem_cons] at hy
      rcases hy with hy | hy
      · exact hy ▸ hf a (hP a (by simp))
      · exact hP y (List.mem_cons_of_mem _ hy)
    | succ n =>
      rw [modIdx, List.mem_cons] at hy
      rcases hy with hy | hy
      · exact hy ▸ hP a (by simp)
      · exact ih n f (fun x hx => hP x (List.mem_cons_of_mem _ hx)) hf y hy

/-- Every branch of the per-line action leaves the declared signals alone,
appends one fresh (change-free) signal, or appends one change stamped with
the current time to one signal. -/
theorem pstep_shape (st : PState) (line : String) :
    (pstep st line).decls = st.decls ∨
    (∃ sig : VCDSignal, sig.values = [] ∧
      (pstep st line).decls = st.decls ++ [sig]) ∨
    ∃ i v, (pstep st line).decls = modIdx st.decls i (appendChange st.cur v) := by
  obtain ⟨mode, tsAcc, tsc, scopes, decls, sigKeys, idKeys, cur, endTime⟩ := st
  cases mode with
  | header =>
    simp only [pstep, headerStep, varStep]
    repeat' split
    all_goals try (left; rfl)
    all_goals exact Or.inr (Or.inl ⟨_, rfl, rfl⟩)
  | timescale =>
    simp only [pstep, tsStep]
    split <;> (left; rfl)
  | values =>
    simp only [pstep, valueStep, recordValue]
    repeat' split
    all_goals try (left; rfl)
    all_goals exact Or.inr (Or.inr ⟨_, _, rfl⟩)

theorem chain_append_point (l : List (Int × String)) (t : Int) (v : String)
    (hc : List.Chain' (fun a b => a.1 ≤ b.1) l)
    (hl : ∀ x ∈ l.getLast?, x.1 ≤ t) :
    List.Chain' (fun a b : Int × String => a.1 ≤ b.1) (l ++ [(t, v)]) := by
  rw [List.chain'_append]
  refine ⟨hc, List.chain'_singleton _, ?_⟩
  intro x hx y hy
  simp only [List.head?_cons, Option.mem_def, Option.some.injEq] at hy
  subst hy
  exact hl x hx

theorem chain_scanl_head (R : Int → Int → Prop) (x : Int) (st : PState)
    (l : List String) :
    List.Chain' R (x :: ((l.scanl pstep st).map PState.cur)) →
    R x st.cur ∧ List.Chain' R ((l.scanl pstep st).map PState.cur) := by
  intro h
  have hhead : ((l.scanl pstep st).map PState.cur) =
      st.cur :: ((l.scanl pstep st).map PState.cur).tail := by
    cases l <;> simp [List.scanl]
  rw [hhead] at h
  rw [List.chain'_cons] at h
  exact ⟨h.1, hhead ▸ h.2⟩

/-- Fold invariant: when the running current time never decreases, every
declared signal keeps a time-ordered trace whose last time is at most the
current time. -/
theorem fold_inv (lines : List String) :
    ∀ st : PState,
      (∀ d ∈ st.decls,
        List.Chain' (fun a b : Int × String => a.1 ≤ b.1) d.values ∧
        ∀ x ∈ d.values.getLast?, x.1 ≤ st.cur) →
      List.Chain' (· ≤ ·) ((lines.scanl pstep st).map PState.cur) →
      ∀ d ∈ (lines.foldl pstep st).decls,
        List.Chain' (fun a b : Int × String => a.1 ≤ b.1) d.values ∧
        ∀ x ∈ d.values.getLast?, x.1 ≤ (lines.foldl pstep st).cur := by
  induction lines with
  | nil => intro st hinv _; simpa using hinv
  | cons a l ih =>
    intro st hinv hchain
    simp only [List.scanl_cons, List.map_append, List.map_cons, List.map_nil,
      List.singleton_append] at hchain
    obtain ⟨hle, hchain'⟩ := chain_scanl_head _ _ _ _ hchain
    rw [List.foldl_cons]
    apply ih
    · intro d hd
      rcases pstep_shape st a with heq | ⟨sig, hsig, heq⟩ | ⟨i, v, heq⟩
      · rw [heq] at hd
        obtain ⟨hc, hl⟩ := hinv d hd
        exact ⟨hc, fun x hx => le_trans (hl x hx) hle⟩
      · rw [heq] at hd
        rw [List.mem_append] at hd
        rcases hd with hd | hd
        · obtain ⟨hc, hl⟩ := hinv d hd
          exact ⟨hc, fun x hx => le_trans (hl x hx) hle⟩
        · rw [List.mem_singleton] at hd
          subst hd
          rw [hsig]
          exact ⟨List.chain'_nil, by simp⟩
      · rw [heq] at hd
        have hmod := modIdx_forall (P := fun d : VCDSignal =>
            List.Chain' (fun a b : Int × String => a.1 ≤ b.1) d.values ∧
            ∀ x ∈ d.values.getLast?, x.1 ≤ st.cur)
          st.decls i (appendChange st.cur v) hinv ?_ d hd
        · exact ⟨hmod.1, fun x hx => le_trans (hmod.2 x hx) hle⟩
        · intro x hx
          refine ⟨chain_append_point _ _ _ hx.1 hx.2, ?_⟩
          intro y hy
          simp only [appendChange, List.getLast?_concat, Option.mem_def,
            Option.some.injEq] at hy
          subst hy
          rfl
    · exact hchain'

/-- C7 (amended): for every input whose value-change timestamps never
decrease along the stream (the parser's running current time, starting at 0,
is non-decreasing), every parsed signal trace is non-decreasing in time.
(The parser itself does not enforce this: see the counterexample.) -/
theorem spec_c7 (content : String)
    (hmono : List.Chain' (· ≤ ·)
      (((splitLines content).scanl pstep initPState).map PState.cur)) :
    ∀ p ∈ (VCDParser.parse content).signals,
      List.Chain' (fun a b : Int × String => a.1 ≤ b.1) p.2.values := by
  intro p hp
  simp only [VCDParser.parse, List.mem_map] at hp
  obtain ⟨kv, hkv, hpe⟩ := hp
  have hfold := fold_inv (splitLines content) initPState (by simp [initPState]) hmono
  have hval : p.2 = ((splitLines content).foldl pstep initPState).decls.getD
      kv.2 defaultVCDSignal := by rw [← hpe]
  rw [hval]
  by_cases hlt : kv.2 < ((splitLines content).foldl pstep initPState).decls.length
  · rw [List.getD_eq_getElem _ _ hlt]
    exact (hfold _ (List.getElem_mem hlt)).1
  · rw [List.getD_eq_default _ _ (le_of_not_lt hlt)]
    exact List.chain'_nil

theorem spec_c7_witness :
    List.Chain' (fun a b : Int × String => a.1 ≤ b.1)
      [((0 : Int), "1"), ((5 : Int), "0")] :=
  spec_c7 c7okLog
    (by
      rw [show (((splitLines c7okLog).scanl pstep initPState).map PState.cur) =
        [0, 0, 0, 0, 0, 5, 5] from by decide]
      simp [List.chain'_cons])
    ("a", VCDSignal.mk "!" "a" 1 "" [((0 : Int), "1"), ((5 : Int), "0")])
    (by decide)

/-- C7 counterexample: with timestamps `#10` then `#3`, the parser records
the trace `[(10, "1"), (3, "0")]`, which is not non-decreasing in time. -/
theorem spec_c7_cex :
    ((VCDParser.parse c7cexLog).signals.lookup "a").map VCDSignal.values =
      some [((10 : Int), "1"), ((3 : Int), "0")] ∧
    ¬ List.Chain' (fun a b : Int × String => a.1 ≤ b.1)
        [((10 : Int), "1"), ((3 : Int), "0")] := by
  refine ⟨by decide, ?_⟩
  simp [List.chain'_cons]

/-! C8/C9: properties of the fuzzy scorer and the greedy reconciliation. -/

theorem startsSeg_len : ∀ (n h : List Char), startsSeg n h = true →
    n.length ≤ h.length := by
  intro n
  induction n with
  | nil => intro h _; simp
  | cons a as ih =>
    intro h hs
    cases h with
    | nil => simp [startsSeg] at hs
    | cons b bs =>
      rw [startsSeg, Bool.and_eq_true] at hs
      simpa using ih bs hs.2

theorem inSeg_len (n : List Char) : ∀ (h : List Char), inSeg n h = true →
    n.length ≤ h.length := by
  intro h
  induction h with
  | nil => intro hs; rw [inSeg] at hs; simpa using startsSeg_len _ _ hs
  | cons b bs ih =>
    intro hs
    rw [inSeg, Bool.or_eq_true] at hs
    rcases hs with hs | hs
    · exact startsSeg_len _ _ hs
    · exact le_trans (ih hs) (by simp)

/-- Exactly matching names (case-insensitively) score 1. -/
theorem fuzzy_eq_one (a b : String) (h : pyLower a = pyLower b) :
    fuzzy_match_score a b = 1 := by
  simp only [fuzzy_match_score]
  rw [if_pos h]

/-- Non-matching names score strictly below 1: every non-exact rule returns
a constant below 1, a ratio bounded by 0.8, or a blend capped at 0.85. -/
theorem fuzzy_lt_one (a b : String) (h : pyLower a ≠ pyLower b) :
    fuzzy_match_score a b < 1 := by
  simp only [fuzzy_match_score]
  rw [if_neg h]
  split_ifs with h2 h3 h4 h5 h6 h7 h8 h9
  · norm_num
  · norm_num
  · norm_num
  · norm_num
  · norm_num
  · obtain ⟨h7a, h7b, h7c⟩ := h7
    have hle : strLen (stripBitRange (pyLower a)) ≤
        strLen (stripBitRange (pyLower b)) := inSeg_len _ _ h7c
    have hpos : (0 : ℚ) < (strLen (stripBitRange (pyLower b)) : ℚ) := by
      exact_mod_cast show 0 < strLen (stripBitRange (pyLower b)) by omega
    have hq : (strLen (stripBitRange (pyLower a)) : ℚ) /
        (strLen (stripBitRange (pyLower b)) : ℚ) ≤ 1 := by
      rw [div_le_one hpos]
      exact_mod_cast hle
    linarith
  · obtain ⟨h8a, h8b, h8c⟩ := h8
    have hle : strLen (stripBitRange (pyLower b)) ≤
        strLen (stripBitRange (pyLower a)) := inSeg_len _ _ h8c
    have hpos : (0 : ℚ) < (strLen (stripBitRange (pyLower a)) : ℚ) := by
      exact_mod_cast show 0 < strLen (stripBitRange (pyLower a)) by omega
    have hq : (strLen (stripBitRange (pyLower b)) : ℚ) /
        (strLen (stripBitRange (pyLower a)) : ℚ) ≤ 1 := by
      rw [div_le_one hpos]
      exact_mod_cast hle
    linarith
  · norm_num
  all_goals exact lt_of_le_of_lt (min_le_right _ _) (by norm_num)

theorem pyEnum_go_ge {α : Type} : ∀ (l : List α) (n : Nat),
    ∀ p ∈ pyEnum.go l n, n ≤ p.1 := by
  intro l
  induction l with
  | nil => intro n p hp; simp [pyEnum.go] at hp
  | cons a as ih =>
    intro n p hp
    rw [pyEnum.go, List.mem_cons] at hp
    rcases hp with hp | hp
    · subst hp; exact le_refl n
    · exact le_trans (Nat.le_succ n) (ih (n + 1) p hp)

theorem pyEnum_go_getD {α : Type} (d : α) : ∀ (l : List α) (n : Nat),
    ∀ p ∈ pyEnum.go l n, l.getD (p.1 - n) d = p.2 := by
  intro l
  induction l with
  | nil => intro n p hp; simp [pyEnum.go] at hp
  | cons a as ih =>
    intro n p hp
    rw [pyEnum.go, List.mem_cons] at hp
    rcases hp with hp | hp
    · subst hp; simp
    · have hge := pyEnum_go_ge as (n + 1) p hp
      have := ih (n + 1) p hp
      have hidx : p.1 - n = (p.1 - (n + 1)) + 1 := by omega
      rw [hidx]
      simpa using this

theorem pyEnum_getD {α : Type} (d : α) (l : List α) :
    ∀ p ∈ pyEnum l, l.getD p.1 d = p.2 := by
  intro p hp
  have := pyEnum_go_getD d l 0 p hp
  simpa using this

theorem pyEnum_go_map_snd {α : Type} : ∀ (l : List α) (n : Nat),
    (pyEnum.go l n).map Prod.snd = l := by
  intro l
  induction l with
  | nil => intro n; rfl
  | cons a as ih => intro n; rw [pyEnum.go, List.map_cons, ih]

theorem pyEnum_map_snd {α : Type} (l : List α) :
    (pyEnum l).map Prod.snd = l :=
  pyEnum_go_map_snd l 0

theorem pyEnum_map_comp {α β : Type} (f : α → β) (l : List α) :
    (pyEnum l).map (fun p => f p.2) = l.map f := by
  rw [show (fun p : Nat × α => f p.2) = f ∘ Prod.snd from rfl, ← List.map_map,
    pyEnum_map_snd]

theorem pyEnum_go_fst_nodup {α : Type} : ∀ (l : List α) (n : Nat),
    ((pyEnum.go l n).map Prod.fst).Nodup := by
  intro l
  induction l with
  | nil => intro n; simp [pyEnum.go]
  | cons a as ih =>
    intro n
    rw [pyEnum.go, List.map_cons, List.nodup_cons]
    refine ⟨?_, ih (n + 1)⟩
    intro hmem
    rw [List.mem_map] at hmem
    obtain ⟨p, hp, hfst⟩ := hmem
    have := pyEnum_go_ge as (n + 1) p hp
    omega

theorem pyEnum_fst_nodup {α : Type} (l : List α) :
    ((pyEnum l).map Prod.fst).Nodup :=
  pyEnum_go_fst_nodup l 0

/-- The used-index skip of the code's inner loop is the spec's fold over the
pruned candidate list, and the best pair always satisfies the `getD`
relation with the candidate list. -/
theorem bestFold_rel (ref : String) (used : List Nat) (avail : List WaveEntry) :
    ∀ (l : List (Nat × WaveEntry)) (stI : BestState)
      (stP : Option (Nat × WaveEntry) × ℚ),
      stI.bestIdx = stP.1.map Prod.fst →
      stI.bestScore = stP.2 →
      (∀ p ∈ stP.1, avail.getD p.1 defaultWaveEntry = p.2) →
      (∀ p ∈ l, avail.getD p.1 defaultWaveEntry = p.2) →
      ((l.foldl (bestStep ref used) stI).bestIdx =
        ((l.filter (fun p => decide (p.1 ∉ used))).foldl
          (pickStepSpec ref) stP).1.map Prod.fst) ∧
      ((l.foldl (bestStep ref used) stI).bestScore =
        ((l.filter (fun p => decide (p.1 ∉ used))).foldl
          (pickStepSpec ref) stP).2) ∧
      ∀ p ∈ ((l.filter (fun p => decide (p.1 ∉ used))).foldl
          (pickStepSpec ref) stP).1,
        avail.getD p.1 defaultWaveEntry = p.2 := by
  intro l
  induction l with
  | nil => intro stI stP h1 h2 h3 _; exact ⟨h1, h2, h3⟩
  | cons q l ih =>
    intro stI stP h1 h2 h3 h4
    by_cases hq : q.1 ∈ used
    · have hskip : bestStep ref used stI q = stI := by
        simp [bestStep, hq]
      have hfil : List.filter (fun p : Nat × WaveEntry => decide (p.1 ∉ used))
          (q :: l) = List.filter (fun p : Nat × WaveEntry => decide (p.1 ∉ used)) l := by
        rw [List.filter_cons]
        simp [hq]
      rw [List.foldl_cons, hskip, hfil]
      exact ih stI stP h1 h2 h3 (fun p hp => h4 p (List.mem_cons_of_mem _ hp))
    · have hfil : List.filter (fun p : Nat × WaveEntry => decide (p.1 ∉ used))
          (q :: l) = q :: List.filter (fun p : Nat × WaveEntry => decide (p.1 ∉ used)) l := by
        rw [List.filter_cons]
        simp [hq]
      rw [List.foldl_cons, hfil, List.foldl_cons]
      have hstep :
          (bestStep ref used stI q).bestIdx =
            (pickStepSpec ref stP q).1.map Prod.fst ∧
          (bestStep ref used stI q).bestScore = (pickStepSpec ref stP q).2 ∧
          ∀ p ∈ (pickStepSpec ref stP q).1,
            avail.getD p.1 defaultWaveEntry = p.2 := by
        simp only [bestStep, pickStepSpec]
        rw [if_neg hq, h2]
        split_ifs with hlt
        · exact ⟨rfl, rfl, fun p hp => by
            rw [Option.mem_def, Option.some.injEq] at hp
            exact hp ▸ h4 q (List.mem_cons_self _ _)⟩
        · exact ⟨h1, h2, h3⟩
      exact ih _ _ hstep.1 hstep.2.1 hstep.2.2
        (fun p hp => h4 p (List.mem_cons_of_mem _ hp))

/-- Code inner loop versus spec pick on the pruned list. -/
theorem best_match_eq (ref : String) (avail : List WaveEntry) (used : List Nat) :
    best_match ref avail used =
      (pickBestSpec ref ((pyEnum avail).filter
        (fun p => decide (p.1 ∉ used)))).map Prod.fst ∧
    ∀ p ∈ pickBestSpec ref ((pyEnum avail).filter
        (fun p => decide (p.1 ∉ used))),
      avail.getD p.1 defaultWaveEntry = p.2 := by
  have h := bestFold_rel ref used avail (pyEnum avail)
    ⟨none, 0.4⟩ (none, 0.4) rfl rfl (by simp) (pyEnum_getD _ avail)
  exact ⟨h.1, h.2.2⟩

theorem filter_used_snoc (avail : List WaveEntry) (used : List Nat) (i : Nat) :
    (pyEnum avail).filter (fun p => decide (p.1 ∉ used ++ [i])) =
      ((pyEnum avail).filter (fun p => decide (p.1 ∉ used))).filter
        (fun p => p.1 ≠ i) := by
  rw [List.filter_filter]
  apply List.filter_congr
  intro p _
  by_cases h1 : p.1 ∈ used <;> by_cases h2 : p.1 = i <;>
    simp [h1, h2, List.mem_append]

theorem greedySpec_nil_avail : ∀ refs : List String,
    greedySpec refs [] = ([], []) := by
  intro refs
  induction refs with
  | nil => rfl
  | cons r rs ih =>
    rw [greedySpec]
    have : pickBestSpec r [] = none := rfl
    rw [this]
    simpa using ih

/-- The outer loop of `reorder_wavedrom_signals` refines the spec's greedy
assignment: accumulated matches and the pruned leftovers agree. -/
theorem reorderLoop_spec (avail : List WaveEntry) :
    ∀ (refs : List String) (used : List Nat) (acc : List WaveEntry),
      ((reorderLoop avail refs used acc).1 =
        acc ++ (greedySpec refs ((pyEnum avail).filter
          (fun p => decide (p.1 ∉ used)))).1) ∧
      ((pyEnum avail).filter
          (fun p => decide (p.1 ∉ (reorderLoop avail refs used acc).2)) =
        (greedySpec refs ((pyEnum avail).filter
          (fun p => decide (p.1 ∉ used)))).2) := by
  intro refs
  induction refs with
  | nil => intro used acc; simp [reorderLoop, greedySpec]
  | cons r rs ih =>
    intro used acc
    obtain ⟨hbm, hpair⟩ := best_match_eq r avail used
    rw [reorderLoop, greedySpec]
    cases hpick : pickBestSpec r ((pyEnum avail).filter
        (fun p => decide (p.1 ∉ used))) with
    | none =>
      rw [hpick] at hbm
      rw [Option.map_none'] at hbm
      rw [hbm]
      exact ih used acc
    | some q =>
      obtain ⟨i, e⟩ := q
      rw [hpick] at hbm hpair
      rw [Option.map_some'] at hbm
      rw [hbm]
      have hgd : avail.getD i defaultWaveEntry = e := hpair (i, e) rfl
      have hfil := filter_used_snoc avail used i
      obtain ⟨ih1, ih2⟩ := ih (used ++ [i]) (acc ++ [avail.getD i defaultWaveEntry])
      rw [hfil] at ih1 ih2
      constructor
      · rw [ih1, hgd]
        simp
      · rw [ih2]

/-- Helper for the degenerate branches: with an empty reference list or an
empty signal list both sides return the document unchanged. -/
theorem reorder_eq_spec (doc : WaveDoc) (refs : List String) (filt : Bool)
    (h : refs ≠ []) :
    reorder_wavedrom_signals doc refs filt = reorderSpec doc refs filt := by
  rw [reorder_wavedrom_signals, reorderSpec]
  by_cases hs : doc.signal = []
  · rw [if_pos (Or.inl hs)]
    rw [hs]
    have hg := greedySpec_nil_avail refs
    rw [show pyEnum ([] : List WaveEntry) = [] from rfl, hg]
    cases doc with
    | mk sig =>
      simp at hs
      subst hs
      cases filt <;> rfl
  · rw [if_neg (by simp [hs, h])]
    obtain ⟨h1, h2⟩ := reorderLoop_spec doc.signal refs [] []
    have hall : (pyEnum doc.signal).filter
        (fun p => decide (p.1 ∉ ([] : List Nat))) = pyEnum doc.signal := by
      apply List.filter_eq_self.mpr
      intro p _
      simp
    rw [hall] at h1 h2
    cases filt with
    | false =>
      simp only [Bool.false_eq_true, if_neg]
      rw [h1, h2]
      simp [pyEnum_map_snd]
    | true =>
      simp only [if_pos]
      rw [h1]
      simp

/-- C8 (amended): provided the reference list is non-empty (an empty list
short-circuits and returns the document unchanged), the reconciliation is
exactly the greedy, order-preserving, one-to-one assignment of the claim —
walk the reference names in order, give each the unused candidate with the
highest fuzzy score strictly above 0.4, skip reference names with no match,
append leftover candidates exactly when `filterToReference` is false — and
with `filterToReference` true the output length is the number of matched
reference names. -/
theorem spec_c8 (doc : WaveDoc) (refs : List String) (filt : Bool)
    (h : refs ≠ []) :
    reorder_wavedrom_signals doc refs filt = reorderSpec doc refs filt ∧
    (filt = true → (reorder_wavedrom_signals doc refs filt).signal.length =
      matchedCountSpec refs (pyEnum doc.signal)) := by
  have heq := reorder_eq_spec doc refs filt h
  refine ⟨heq, fun hf => ?_⟩
  rw [heq, reorderSpec, hf, matchedCountSpec]
  simp

theorem spec_c8_witness :
    reorder_wavedrom_signals c9doc ["data", "clk"] true =
      reorderSpec c9doc ["data", "clk"] true ∧
    (true = true → (reorder_wavedrom_signals c9doc ["data", "clk"] true).signal.length =
      matchedCountSpec ["data", "clk"] (pyEnum c9doc.signal)) :=
  spec_c8 c9doc ["data", "clk"] true (by decide)

/-- C8 counterexample: with an empty reference list and `filterToReference`
true, the document is returned unchanged, so the output length is 1 while
zero reference names were matched — the claimed length equation fails. -/
theorem spec_c8_cex :
    reorder_wavedrom_signals c8doc [] true = c8doc ∧
    (reorder_wavedrom_signals c8doc [] true).signal.length = 1 ∧
    matchedCountSpec [] (pyEnum c8doc.signal) = 0 ∧
    (1 : Nat) ≠ 0 := by
  refine ⟨rfl, rfl, rfl, by decide⟩

theorem pickFold_keep (ref : String) :
    ∀ (l : List (Nat × WaveEntry)) (st : Option (Nat × WaveEntry) × ℚ),
      (∀ p ∈ l, ¬(st.2 < fuzzy_match_score ref p.2.name)) →
      l.foldl (pickStepSpec ref) st = st := by
  intro l
  induction l with
  | nil => intro st _; rfl
  | cons q l ih =>
    intro st h
    rw [List.foldl_cons]
    have hs : pickStepSpec ref st q = st := by
      rw [pickStepSpec, if_neg (h q (List.mem_cons_self _ _))]
    rw [hs]
    exact ih st (fun p hp => h p (List.mem_cons_of_mem _ hp))

theorem pickFold_lt (ref : String) :
    ∀ (l : List (Nat × WaveEntry)) (st : Option (Nat × WaveEntry) × ℚ),
      (∀ p ∈ l, fuzzy_match_score ref p.2.name < 1) → st.2 < 1 →
      (l.foldl (pickStepSpec ref) st).2 < 1 := by
  intro l
  induction l with
  | nil => intro st _ hst; exact hst
  | cons q l ih =>
    intro st h hst
    rw [List.foldl_cons]
    apply ih _ (fun p hp => h p (List.mem_cons_of_mem _ hp))
    rw [pickStepSpec]
    split_ifs
    · exact h q (List.mem_cons_self _ _)
    · exact hst

/-- When exactly one candidate scores 1 and all others score below 1, the
greedy pick selects that candidate. -/
theorem pickBest_unique (ref : String) (P1 P2 : List (Nat × WaveEntry))
    (q : Nat × WaveEntry)
    (hq : fuzzy_match_score ref q.2.name = 1)
    (h1 : ∀ p ∈ P1, fuzzy_match_score ref p.2.name < 1)
    (h2 : ∀ p ∈ P2, fuzzy_match_score ref p.2.name < 1) :
    pickBestSpec ref (P1 ++ q :: P2) = some q := by
  rw [pickBestSpec, List.foldl_append, List.foldl_cons]
  have hlt : (P1.foldl (pickStepSpec ref) (none, 0.4)).2 < 1 :=
    pickFold_lt ref P1 _ h1 (by norm_num)
  have hstep : pickStepSpec ref (P1.foldl (pickStepSpec ref) (none, 0.4)) q =
      (some q, 1) := by
    rw [pickStepSpec, hq, if_pos hlt]
  rw [hstep, pickFold_keep ref P2 (some q, 1)
    (fun p hp => not_lt.mpr (le_of_lt (h2 p hp)))]

/-- Greedy reconciliation against the exact candidate names: with pairwise
distinct lower-cased names and a reference list that permutes the candidate
names, every reference name is matched with its own candidate, in reference
order, and no candidate is left over. -/
theorem greedy_exact :
    ∀ (refs : List String) (P : List (Nat × WaveEntry)),
      (P.map Prod.fst).Nodup →
      (P.map (fun p => pyLower p.2.name)).Nodup →
      refs.Perm (P.map (fun p => p.2.name)) →
      (greedySpec refs P).1.map WaveEntry.name = refs ∧
      (greedySpec refs P).1.Perm (P.map Prod.snd) ∧
      (greedySpec refs P).2 = [] := by
  intro refs
  induction refs with
  | nil =>
    intro P hidx hdist hperm
    have hP : P = [] := by
      have h0 : P.map (fun p => p.2.name) = [] := (hperm.symm.eq_nil)
      exact List.map_eq_nil_iff.mp h0
    subst hP
    exact ⟨rfl, List.Perm.refl _, rfl⟩
  | cons r rs ih =>
    intro P hidx hdist hperm
    have hr : r ∈ P.map (fun p => p.2.name) :=
      hperm.subset (List.mem_cons_self _ _)
    rw [List.mem_map] at hr
    obtain ⟨q, hqP, hqname⟩ := hr
    obtain ⟨P1, P2, rfl⟩ := List.append_of_mem hqP
    obtain ⟨qi, qe⟩ := q
    -- distinctness facts
    have hdist' := hdist
    rw [List.map_append, List.map_cons, List.nodup_middle,
      List.nodup_cons] at hdist'
    obtain ⟨hqnotin, hdistrest⟩ := hdist'
    have hidx' := hidx
    rw [List.map_append, List.map_cons, List.nodup_middle,
      List.nodup_cons] at hidx'
    obtain ⟨hinotin, hidxrest⟩ := hidx'
    -- score facts
    have hsq : fuzzy_match_score r qe.name = 1 :=
      fuzzy_eq_one _ _ (by rw [hqname])
    have hs1 : ∀ p ∈ P1, fuzzy_match_score r p.2.name < 1 := by
      intro p hp
      apply fuzzy_lt_one
      intro hcontra
      apply hqnotin
      rw [List.mem_append]
      left
      rw [List.mem_map]
      exact ⟨p, hp, by rw [← hcontra, hqname]⟩
    have hs2 : ∀ p ∈ P2, fuzzy_match_score r p.2.name < 1 := by
      intro p hp
      apply fuzzy_lt_one
      intro hcontra
      apply hqnotin
      rw [List.mem_append]
      right
      rw [List.mem_map]
      exact ⟨p, hp, by rw [← hcontra, hqname]⟩
    have hpick := pickBest_unique r P1 P2 (qi, qe) hsq hs1 hs2
    simp only [greedySpec, hpick]
    -- the pruned pool is exactly P1 ++ P2
    have hprune : (P1 ++ (qi, qe) :: P2).filter (fun p => p.1 ≠ qi) =
        P1 ++ P2 := by
      rw [List.filter_append, List.filter_cons]
      have hno : ¬(decide ((qi, qe).1 ≠ qi) = true) := by simp
      rw [if_neg hno]
      have k1 : P1.filter (fun p => p.1 ≠ qi) = P1 := by
        apply List.filter_eq_self.mpr
        intro p hp
        simp only [decide_eq_true_eq]
        intro hcontra
        exact hinotin (by
          rw [List.mem_append]
          left
          rw [List.mem_map]
          exact ⟨p, hp, hcontra⟩)
      have k2 : P2.filter (fun p => p.1 ≠ qi) = P2 := by
        apply List.filter_eq_self.mpr
        intro p hp
        simp only [decide_eq_true_eq]
        intro hcontra
        exact hinotin (by
          rw [List.mem_append]
          right
          rw [List.mem_map]
          exact ⟨p, hp, hcontra⟩)
      rw [k1, k2]
    rw [hprune]
    -- the remaining references permute the remaining names
    have hperm' : rs.Perm ((P1 ++ P2).map (fun p => p.2.name)) := by
      have hmaps : (P1 ++ (qi, qe) :: P2).map (fun p => p.2.name) =
          (P1.map (fun p => p.2.name)) ++ r :: (P2.map (fun p => p.2.name)) := by
        rw [List.map_append, List.map_cons]
        simpa using hqname
      have h0 : (r :: rs).Perm ((P1.map (fun p => p.2.name)) ++
          r :: (P2.map (fun p => p.2.name))) := by
        rw [← hmaps]
        exact hperm
      have h3 := h0.trans List.perm_middle
      have h4 := h3.cons_inv
      rw [List.map_append]
      exact h4
    have hrest := ih (P1 ++ P2)
      (by rw [List.map_append]; exact hidxrest)
      (by rw [List.map_append]; exact hdistrest)
      hperm'
    obtain ⟨hname, hp2, hleft⟩ := hrest
    refine ⟨?_, ?_, hleft⟩
    · rw [List.map_cons, hname, hqname]
    · have hsnd : ((P1 ++ (qi, qe) :: P2).map Prod.snd).Perm
          (qe :: ((P1 ++ P2).map Prod.snd)) := by
        rw [List.map_append, List.map_cons, List.map_append]
        exact List.perm_middle
      exact (hp2.cons qe).trans hsnd.symm

/-- C9: reconciling a document whose entry names are pairwise distinct
(case-insensitively) against any permutation of its own names yields the
same signals as a multiset, ordered by the reference list. -/
theorem spec_c9 (doc : WaveDoc) (refs : List String) (filt : Bool)
    (hdist : (doc.signal.map (fun e => pyLower e.name)).Nodup)
    (hperm : refs.Perm (doc.signal.map WaveEntry.name)) :
    (reorder_wavedrom_signals doc refs filt).signal.map WaveEntry.name = refs ∧
    (reorder_wavedrom_signals doc refs filt).signal.Perm doc.signal := by
  by_cases hs : doc.signal = []
  · have hrefs : refs = [] := by
      have h0 := hperm
      rw [hs] at h0
      simpa using h0.eq_nil
    subst hrefs
    rw [reorder_wavedrom_signals, if_pos (Or.inr rfl)]
    rw [hs]
    exact ⟨rfl, List.Perm.refl _⟩
  · have hrefs : refs ≠ [] := by
      intro h0
      subst h0
      have h1 : doc.signal.map WaveEntry.name = [] := hperm.symm.eq_nil
      exact hs (List.map_eq_nil_iff.mp h1)
    rw [reorder_eq_spec doc refs filt hrefs, reorderSpec]
    have e1 : (pyEnum doc.signal).map (fun p => pyLower p.2.name) =
        doc.signal.map (fun e => pyLower e.name) := by
      rw [show (fun p : Nat × WaveEntry => pyLower p.2.name) =
        ((fun e : WaveEntry => pyLower e.name) ∘ Prod.snd) from rfl,
        ← List.map_map, pyEnum_map_snd]
    have e2 : (pyEnum doc.signal).map (fun p => p.2.name) =
        doc.signal.map WaveEntry.name := by
      rw [show (fun p : Nat × WaveEntry => p.2.name) =
        (WaveEntry.name ∘ Prod.snd) from rfl, ← List.map_map, pyEnum_map_snd]
    have hge := greedy_exact refs (pyEnum doc.signal)
      (pyEnum_fst_nodup _)
      (by rw [e1]; exact hdist)
      (by rw [e2]; exact hperm)
    obtain ⟨hname, hperm2, hleft⟩ := hge
    rw [hleft]
    have hsig : (greedySpec refs (pyEnum doc.signal)).1 ++
        (if filt then [] else ([] : List (Nat × WaveEntry)).map Prod.snd) =
        (greedySpec refs (pyEnum doc.signal)).1 := by
      cases filt <;> simp
    refine ⟨?_, ?_⟩
    · rw [hsig, hname]
    · rw [hsig]
      exact hperm2.trans (by rw [pyEnum_map_snd])

theorem spec_c9_witness :
    (reorder_wavedrom_signals c9doc ["data", "clk"] true).signal.map
        WaveEntry.name = ["data", "clk"] ∧
    (reorder_wavedrom_signals c9doc ["data", "clk"] true).signal.Perm
      c9doc.signal :=
  spec_c9 c9doc ["data", "clk"] true (by decide)
    (by exact List.Perm.swap _ _ _)
